import Mathlib

/-!
Verification of the Growloom Captioner server core (`server/index.js`).

JavaScript numbers are modelled as exact rationals (`ℚ`), JavaScript
strings as `List Char`, and each server function is translated into a
computable Lean definition.  Theorems at the end settle the spec's
claims about the script parser, the SRT serializer, the duration
reconciler, the progress tracker and the option clamping.
-/

namespace Growloom

/-- JS `Math.round`: round half toward positive infinity. -/
def jsRound (q : ℚ) : ℤ := ⌊q + 1/2⌋

/-- JS remainder `a % b` for `a ≥ 0`, `b > 0` (there it agrees with
`a - b * ⌊a / b⌋`, which is how the server uses it in `formatTime`). -/
def jsMod (a b : ℚ) : ℚ := a - b * (⌊a / b⌋ : ℤ)

/-- Split a character list at every character satisfying `p`, keeping
empty segments (the semantics of JS `String.prototype.split` with a
single-character separator when `p` matches exactly that character). -/
def splitByP (p : Char → Bool) : List Char → List (List Char)
  | [] => [[]]
  | c :: cs =>
    match splitByP p cs with
    | [] => [[]]
    | t :: ts => if p c then [] :: t :: ts else (c :: t) :: ts

/-- Drop leading whitespace characters (helper for `jsTrim`). -/
def dropLeadingWs : List Char → List Char
  | [] => []
  | c :: cs => if c.isWhitespace then dropLeadingWs cs else c :: cs

/-- JS `String.prototype.trim`: drop leading and trailing whitespace. -/
def jsTrim (cs : List Char) : List Char :=
  (dropLeadingWs (dropLeadingWs cs.reverse).reverse)

/-- Maximal non-whitespace runs of a character list.  This models
`text.split(/\s+/).length`'s token list for the trimmed, non-empty
`text` the server applies it to (line 122 of `server/index.js`). -/
def wordTokens (cs : List Char) : List (List Char) :=
  (splitByP Char.isWhitespace cs).filter (fun t => t ≠ [])

/-- One timed subtitle cue, as built by `parseScript`
(`server/index.js` lines 125-131). -/
structure Subtitle where
  id : ℕ
  text : List Char
  start : ℚ
  «end» : ℚ
  duration : ℚ
deriving DecidableEq, Repr

/-- The non-blank lines of the script:
`scriptContent.split('\n').filter(line => line.trim())`
(`server/index.js` line 114). -/
def nonBlankLines (scriptContent : List Char) : List (List Char) :=
  (splitByP (fun c => c = '\n') scriptContent).filter (fun line => jsTrim line ≠ [])

/-- The `lines.forEach` loop body of `parseScript` (`server/index.js`
lines 118-134): walks the filtered lines carrying the running index and
the running `currentTime`, emitting one cue per line.  The `if (!text)
return` guard of the source is kept even though the caller has already
filtered blank lines out. -/
def parseScriptAux (baseDuration wordDuration : ℚ) :
    List (List Char) → ℕ → ℚ → List Subtitle
  | [], _, _ => []
  | line :: rest, index, currentTime =>
    let text := jsTrim line
    if text = [] then
      parseScriptAux baseDuration wordDuration rest (index + 1) currentTime
    else
      let duration := baseDuration + ((wordTokens text).length : ℚ) * wordDuration
      { id := index + 1, text := text, start := currentTime,
        «end» := currentTime + duration, duration := duration } ::
        parseScriptAux baseDuration wordDuration rest (index + 1) (currentTime + duration)

/-- `parseScript(scriptContent, options)` of `server/index.js`
(lines 107-137), with the two numeric options passed explicitly. -/
def parseScript (scriptContent : List Char) (baseDuration wordDuration : ℚ) :
    List Subtitle :=
  parseScriptAux baseDuration wordDuration (nonBlankLines scriptContent) 0 0

/-- `subtitles[subtitles.length - 1].end` (`server/index.js` line 504);
`0` when the list is empty (the server only reads it on non-empty lists). -/
def subtitlesDuration (subs : List Subtitle) : ℚ :=
  match subs.getLast? with
  | some sub => sub.«end»
  | none => 0

/-- The effective processing window of the truncate policy:
`Math.min(videoDuration, subtitlesDuration)` (`server/index.js` line 507). -/
def processingDuration (videoDuration subtitlesDur : ℚ) : ℚ :=
  min videoDuration subtitlesDur

/-- Cue truncation to the processing window (`server/index.js` lines
514-522): drop cues whose `start` is not below the window, then clamp
any remaining cue's `end` (and `duration`) to the window. -/
def truncateSubtitles (subs : List Subtitle) (w : ℚ) : List Subtitle :=
  (subs.filter (fun sub => sub.start < w)).map
    (fun sub =>
      if w < sub.«end» then { sub with «end» := w, duration := w - sub.start }
      else sub)

/-- `Math.max(videoDuration, subtitlesDuration)` (`server/index.js`
line 1239), the window the pad-policy encode covers and against which
encode progress is measured. -/
def totalDuration (videoDuration subtitlesDur : ℚ) : ℚ :=
  max videoDuration subtitlesDur

/-- The shape of the final-encode filter graph chosen at
`server/index.js` lines 1369-1401: either concat with a black padding
clip of the given duration and exact source dimensions, or a plain
subtitle burn-in. -/
inductive EncodeFilter where
  | padConcat (paddingDuration : ℚ) (width height : ℕ) : EncodeFilter
  | straight : EncodeFilter
deriving DecidableEq, Repr

/-- The branch `if (subtitlesDuration > videoDuration)` of
`server/index.js` lines 1369-1401, with
`paddingDuration = subtitlesDuration - videoDuration` and the padding
clip sized `videoWidth x videoHeight`. -/
def buildEncodeFilter (videoDuration subtitlesDur : ℚ)
    (videoWidth videoHeight : ℕ) : EncodeFilter :=
  if videoDuration < subtitlesDur then
    .padConcat (subtitlesDur - videoDuration) videoWidth videoHeight
  else
    .straight

/-- Decimal printing of a natural number, most significant digit first
(the JS `Number.prototype.toString` the server interpolates into the
SRT text).  The fuel argument only drives the recursion. -/
def natToStringAux : ℕ → ℕ → List Char → List Char
  | 0, _, acc => acc
  | fuel + 1, n, acc =>
    if n < 10 then Nat.digitChar n :: acc
    else natToStringAux fuel (n / 10) (Nat.digitChar (n % 10) :: acc)

/-- JS `n.toString()` for a natural number. -/
def natToString (n : ℕ) : List Char := natToStringAux (n + 1) n []

/-- JS `s.padStart(len, '0')` (`formatTime`, `server/index.js` line 155). -/
def padZeros (len : ℕ) (cs : List Char) : List Char :=
  List.replicate (len - cs.length) '0' ++ cs

/-- `formatTime(seconds)` of `server/index.js` lines 149-156, for the
non-negative times the server feeds it: `HH:MM:SS,mmm` with the four
fields floored and zero-padded. -/
def formatTime (q : ℚ) : List Char :=
  let hours := (⌊q / 3600⌋).toNat
  let minutes := (⌊jsMod q 3600 / 60⌋).toNat
  let secs := (⌊jsMod q 60⌋).toNat
  let ms := (⌊jsMod q 1 * 1000⌋).toNat
  padZeros 2 (natToString hours) ++ ':' ::
    (padZeros 2 (natToString minutes) ++ ':' ::
      (padZeros 2 (natToString secs) ++ ',' :: padZeros 3 (natToString ms)))

/-- The time-range line of one SRT block:
`` `${startTime} --> ${endTime}` `` (`server/index.js` line 144). -/
def timeRangeLine (sub : Subtitle) : List Char :=
  formatTime sub.start ++ ' ' :: '-' :: '-' :: '>' :: ' ' :: formatTime sub.«end»

/-- One SRT block: `` `${sub.id}\n${startTime} --> ${endTime}\n${sub.text}\n` ``
(`server/index.js` line 144). -/
def srtBlock (sub : Subtitle) : List Char :=
  natToString sub.id ++ '\n' :: (timeRangeLine sub ++ '\n' :: (sub.text ++ ['\n']))

/-- JS `Array.prototype.join('\n')`. -/
def joinNl : List (List Char) → List Char
  | [] => []
  | [b] => b
  | b :: b2 :: bs => b ++ '\n' :: joinNl (b2 :: bs)

/-- `generateSRT(subtitles)` of `server/index.js` lines 140-146. -/
def generateSRT (subs : List Subtitle) : List Char :=
  joinNl (subs.map srtBlock)

/-- The numeric value of a decimal digit character. -/
def digitVal (c : Char) : ℕ := c.toNat - 48

/-- Modelled from the spec: read back a decimal digit run (the spec's
round-trip property re-parses the serialized time ranges; the server
itself has no SRT reader). -/
def parseNat (cs : List Char) : Option ℕ :=
  if cs ≠ [] ∧ ∀ c ∈ cs, c.isDigit then
    some (cs.foldl (fun a c => 10 * a + digitVal c) 0)
  else none

/-- Modelled from the spec: read an `HH:MM:SS,mmm` field back to
seconds, the inverse reading of the interchange format named by the
round-trip property. -/
def parseSRTTime (cs : List Char) : Option ℚ :=
  match splitByP (fun c => c = ':') cs with
  | [hh, mm, rest] =>
    match splitByP (fun c => c = ',') rest with
    | [ss, mss] =>
      match parseNat hh, parseNat mm, parseNat ss, parseNat mss with
      | some h, some m, some s, some ms =>
        some ((h : ℚ) * 3600 + (m : ℚ) * 60 + (s : ℚ) + (ms : ℚ) / 1000)
      | _, _, _, _ => none
    | _ => none
  | _ => none

/-- Modelled from the spec: read one `start --> end` time-range line
back to a pair of times. -/
def parseTimeRange (cs : List Char) : Option (ℚ × ℚ) :=
  match splitByP (fun c => c = ' ') cs with
  | [t1, arrow, t2] =>
    if arrow = ['-', '-', '>'] then
      (parseSRTTime t1).bind fun a => (parseSRTTime t2).map fun b => (a, b)
    else none
  | _ => none

/-- The second line of every four-line SRT group (index line, time
range, text, blank separator). -/
def everyFourthSecond : List (List Char) → List (List Char)
  | _ :: b :: _ :: _ :: rest => b :: everyFourthSecond rest
  | _ => []

/-- Modelled from the spec: re-parse all time ranges of a serialized
cue sequence. -/
def reparseTimeRanges (srt : List Char) : List (Option (ℚ × ℚ)) :=
  (everyFourthSecond (splitByP (fun c => c = '\n') srt)).map parseTimeRange

/-- A time truncated to millisecond precision, the value the SRT
format can carry. -/
def msTrunc (q : ℚ) : ℚ := (⌊1000 * q⌋ : ℤ) / 1000

/-- `parseFFmpegProgress` (`server/index.js` lines 224-233) applied to
a line whose `time=HH:MM:SS.ss` marker matched with hour group `h`,
minute group `m` and seconds group `s`. -/
def ffmpegElapsed (h m : ℕ) (s : ℚ) : ℚ := (h : ℚ) * 3600 + (m : ℚ) * 60 + s

/-- The progress percent written for one parsed encoder time
(`server/index.js` lines 610-614):
`Math.round(Math.min(95, 55 + Math.min(1, currentTime / window) * 40))`. -/
def encodeProgressValue (elapsed window : ℚ) : ℤ :=
  jsRound (min 95 (55 + min 1 (elapsed / window) * 40))

/-- Where a background run stops (`processVideoInBackground`,
`server/index.js` lines 1148-1498): the empty-script throw, a probe
failure, a preview failure, an encode failure, or full success. -/
inductive RunOutcome where
  | emptyScript
  | probeFail
  | previewFail
  | encodeFail
  | success
deriving DecidableEq, Repr

/-- The sequence of progress percentages written to the tracker for
one job, in order: 5 from the request handler (line 1115), then 10,
15, 20, 30, 35, 40, 50, 55 at the stage boundaries of
`processVideoInBackground`, the encode-progress writes, 98 and 100 on
success — and `0` from `updateProgress(0, 'Processing failed')`
(line 1490) on every error path. -/
def progressWrites (outcome : RunOutcome) (encodeTimes : List ℚ) (window : ℚ) :
    List ℤ :=
  5 :: 10 :: 15 ::
    match outcome with
    | .emptyScript => [0]
    | .probeFail => [20, 0]
    | .previewFail => [20, 30, 35, 40, 0]
    | .encodeFail =>
      [20, 30, 35, 40, 50, 55] ++
        encodeTimes.map (fun t => encodeProgressValue t window) ++ [0]
    | .success =>
      [20, 30, 35, 40, 50, 55] ++
        encodeTimes.map (fun t => encodeProgressValue t window) ++ [98, 100]

/-- How far a submission gets before its first decision point
(`POST /api/caption`, `server/index.js` lines 1097-1175): the
synchronous missing-file rejection, the background empty-script throw,
or on past both into media processing. -/
inductive SubmitOutcome where
  | missingFiles
  | emptyScript
  | proceeds
deriving DecidableEq, Repr

/-- What a client and the registry observe about one submission. -/
structure SubmitObs where
  /-- the handler answered `res.json({success, jobId})` (line 1124)
  rather than a synchronous error -/
  respondsWithJobId : Bool
  /-- `updateProgress(5, ...)` (line 1115) put a tracker entry in the
  registry for this job id -/
  progressEntryCreated : Bool
  /-- the background task reached the `ffprobe` invocation
  (line 1180) -/
  probeStarted : Bool
  /-- the background task stored the empty-script error payload
  (lines 1483-1487) -/
  emptyScriptErrorStored : Bool
deriving DecidableEq, Repr

/-- The decision path of `POST /api/caption`: `updateProgress(5, ...)`
runs first, the missing-file check answers 400 synchronously, and the
empty-script check happens inside the background task after the job-id
response went out (`server/index.js` lines 1114-1175). -/
def captionSubmit (hasScript hasVideo : Bool) (script : List Char)
    (baseDuration wordDuration : ℚ) : SubmitOutcome :=
  if hasScript && hasVideo then
    if parseScript script baseDuration wordDuration = [] then .emptyScript
    else .proceeds
  else .missingFiles

/-- The observations produced by each submission path. -/
def submitObs : SubmitOutcome → SubmitObs
  | .missingFiles =>
    { respondsWithJobId := false, progressEntryCreated := true,
      probeStarted := false, emptyScriptErrorStored := false }
  | .emptyScript =>
    { respondsWithJobId := true, progressEntryCreated := true,
      probeStarted := false, emptyScriptErrorStored := true }
  | .proceeds =>
    { respondsWithJobId := true, progressEntryCreated := true,
      probeStarted := true, emptyScriptErrorStored := false }

/-- One entry of `global.processingProgress`. -/
structure ProgressEntry where
  progress : ℤ
  status : List Char
deriving DecidableEq, Repr

/-- The default shape `{ progress: 0, status: 'Starting...' }` of the
progress endpoint (`server/index.js` line 238). -/
def defaultProgressEntry : ProgressEntry :=
  { progress := 0,
    status := ['S', 't', 'a', 'r', 't', 'i', 'n', 'g', '.', '.', '.'] }

/-- `GET /api/progress/:jobId` (`server/index.js` lines 236-241):
`global.processingProgress?.[jobId] || {progress: 0, status: 'Starting...'}`.
Stored entries are objects, hence truthy, so `||` only fires on an
absent id. -/
def progressRead (registry : ℕ → Option ProgressEntry) (jobId : ℕ) :
    ProgressEntry :=
  match registry jobId with
  | some entry => entry
  | none => defaultProgressEntry

/-- JS `parseFloat(x) || d`: `none` models `NaN`; `0` and `NaN` are
falsy and fall through to the default (`server/index.js` lines
1158-1159). -/
def jsOrQ (x : Option ℚ) (d : ℚ) : ℚ :=
  match x with
  | some v => if v = 0 then d else v
  | none => d

/-- JS `parseInt(x) || d` (`server/index.js` line 1163). -/
def jsOrZ (x : Option ℤ) (d : ℤ) : ℤ :=
  match x with
  | some v => if v = 0 then d else v
  | none => d

/-- `Math.max(0.1, Math.min(10, parseFloat(options.baseDuration) || 3))`
(`server/index.js` line 1158). -/
def clampedBaseDuration (raw : Option ℚ) : ℚ :=
  max 0.1 (min 10 (jsOrQ raw 3))

/-- `Math.max(0.1, Math.min(2, parseFloat(options.wordDuration) || 0.3))`
(`server/index.js` line 1159). -/
def clampedWordDuration (raw : Option ℚ) : ℚ :=
  max 0.1 (min 2 (jsOrQ raw 0.3))

/-- `Math.max(12, Math.min(48, parseInt(options.fontSize) || 24))`
(`server/index.js` line 1163). -/
def clampedFontSize (raw : Option ℤ) : ℤ :=
  max 12 (min 48 (jsOrZ raw 24))

/-- Scenario A's script, `"Hello world\nThis is a test"`. -/
def scenarioA : List Char :=
  ['H', 'e', 'l', 'l', 'o', ' ', 'w', 'o', 'r', 'l', 'd', '\n',
   'T', 'h', 'i', 's', ' ', 'i', 's', ' ', 'a', ' ', 't', 'e', 's', 't']

theorem nonBlankLines_trim_ne {script l : List Char}
    (hl : l ∈ nonBlankLines script) : jsTrim l ≠ [] := by
  simp only [nonBlankLines, List.mem_filter, decide_eq_true_eq] at hl
  exact hl.2

theorem parseScriptAux_cons (b w : ℚ) (line : List Char)
    (rest : List (List Char)) (i : ℕ) (t : ℚ) (h : jsTrim line ≠ []) :
    parseScriptAux b w (line :: rest) i t =
      { id := i + 1, text := jsTrim line, start := t,
        «end» := t + (b + ((wordTokens (jsTrim line)).length : ℚ) * w),
        duration := b + ((wordTokens (jsTrim line)).length : ℚ) * w } ::
        parseScriptAux b w rest (i + 1)
          (t + (b + ((wordTokens (jsTrim line)).length : ℚ) * w)) := by
  simp [parseScriptAux, h]

theorem parseScriptAux_length (b w : ℚ) :
    ∀ (lines : List (List Char)) (i : ℕ) (t : ℚ),
      (∀ l ∈ lines, jsTrim l ≠ []) →
      (parseScriptAux b w lines i t).length = lines.length := by
  intro lines
  induction lines with
  | nil => intro i t _; rfl
  | cons line rest ih =>
    intro i t h
    rw [parseScriptAux_cons b w line rest i t (h line (by simp))]
    simp [ih (i + 1) _ (fun l hl => h l (List.mem_cons_of_mem _ hl))]

theorem parseScriptAux_chain_end (b w : ℚ) :
    ∀ (lines : List (List Char)) (i : ℕ) (t : ℚ),
      (∀ l ∈ lines, jsTrim l ≠ []) →
      List.Chain' (fun a c => a.«end» = c.start) (parseScriptAux b w lines i t) := by
  intro lines
  induction lines with
  | nil => intro i t _; exact List.chain'_nil
  | cons line rest ih =>
    intro i t h
    rw [parseScriptAux_cons b w line rest i t (h line (by simp))]
    have hrest : ∀ l ∈ rest, jsTrim l ≠ [] :=
      fun l hl => h l (List.mem_cons_of_mem _ hl)
    refine List.chain'_cons'.mpr ⟨?_, ih (i + 1) _ hrest⟩
    intro c hc
    cases rest with
    | nil => simp [parseScriptAux] at hc
    | cons r rs =>
      rw [parseScriptAux_cons b w r rs (i + 1) _ (hrest r (by simp))] at hc
      simp at hc
      simp [← hc]

theorem parseScriptAux_mem (b w : ℚ) :
    ∀ (lines : List (List Char)) (i : ℕ) (t : ℚ),
      (∀ l ∈ lines, jsTrim l ≠ []) →
      ∀ sub ∈ parseScriptAux b w lines i t,
        sub.«end» = sub.start + sub.duration ∧
        sub.duration = b + ((wordTokens sub.text).length : ℚ) * w := by
  intro lines
  induction lines with
  | nil => intro i t _ sub hsub; simp [parseScriptAux] at hsub
  | cons line rest ih =>
    intro i t h sub hsub
    rw [parseScriptAux_cons b w line rest i t (h line (by simp))] at hsub
    rcases List.mem_cons.mp hsub with rfl | hsub
    · exact ⟨rfl, rfl⟩
    · exact ih (i + 1) _ (fun l hl => h l (List.mem_cons_of_mem _ hl)) sub hsub

theorem parseScriptAux_chain_start (b w : ℚ) (hb : 0 < b) (hw : 0 ≤ w) :
    ∀ (lines : List (List Char)) (i : ℕ) (t : ℚ),
      (∀ l ∈ lines, jsTrim l ≠ []) →
      List.Chain' (fun a c => a.start ≤ c.start) (parseScriptAux b w lines i t) := by
  intro lines
  induction lines with
  | nil => intro i t _; exact List.chain'_nil
  | cons line rest ih =>
    intro i t h
    rw [parseScriptAux_cons b w line rest i t (h line (by simp))]
    have hrest : ∀ l ∈ rest, jsTrim l ≠ [] :=
      fun l hl => h l (List.mem_cons_of_mem _ hl)
    refine List.chain'_cons'.mpr ⟨?_, ih (i + 1) _ hrest⟩
    intro c hc
    cases rest with
    | nil => simp [parseScriptAux] at hc
    | cons r rs =>
      rw [parseScriptAux_cons b w r rs (i + 1) _ (hrest r (by simp))] at hc
      simp at hc
      have hd : 0 ≤ ((wordTokens (jsTrim line)).length : ℚ) * w :=
        mul_nonneg (Nat.cast_nonneg _) hw
      simp [← hc]
      linarith

theorem parseScriptAux_map_text (b w : ℚ) :
    ∀ (lines : List (List Char)) (i : ℕ) (t : ℚ),
      (∀ l ∈ lines, jsTrim l ≠ []) →
      (parseScriptAux b w lines i t).map Subtitle.text = lines.map jsTrim := by
  intro lines
  induction lines with
  | nil => intro i t _; rfl
  | cons line rest ih =>
    intro i t h
    rw [parseScriptAux_cons b w line rest i t (h line (by simp))]
    simp [ih (i + 1) _ (fun l hl => h l (List.mem_cons_of_mem _ hl))]

theorem parseScriptAux_bounds (b w : ℚ) (hb : 0 < b) (hw : 0 ≤ w) :
    ∀ (lines : List (List Char)) (i : ℕ) (t : ℚ),
      (∀ l ∈ lines, jsTrim l ≠ []) →
      ∀ sub ∈ parseScriptAux b w lines i t,
        t ≤ sub.start ∧
        sub.start < subtitlesDuration (parseScriptAux b w lines i t) ∧
        sub.«end» ≤ subtitlesDuration (parseScriptAux b w lines i t) := by
  intro lines
  induction lines with
  | nil => intro i t _ sub hsub; simp [parseScriptAux] at hsub
  | cons line rest ih =>
    intro i t h sub hsub
    have hline := h line (by simp)
    have hrest : ∀ l ∈ rest, jsTrim l ≠ [] :=
      fun l hl => h l (List.mem_cons_of_mem _ hl)
    have hd : 0 < b + ((wordTokens (jsTrim line)).length : ℚ) * w := by
      have := mul_nonneg (Nat.cast_nonneg (wordTokens (jsTrim line)).length) hw
      linarith
    rw [parseScriptAux_cons b w line rest i t hline] at hsub ⊢
    cases rest with
    | nil =>
      simp [parseScriptAux] at hsub
      subst hsub
      simp [parseScriptAux, subtitlesDuration]
      linarith
    | cons r rs =>
      rw [parseScriptAux_cons b w r rs (i + 1) _ (hrest r (by simp))] at hsub ⊢
      rw [subtitlesDuration, List.getLast?_cons_cons, ← subtitlesDuration]
      rw [← parseScriptAux_cons b w r rs (i + 1) _ (hrest r (by simp))] at hsub ⊢
      set d := b + ((wordTokens (jsTrim line)).length : ℚ) * w with hdd
      have hhead : ∀ sub2 ∈ parseScriptAux b w (r :: rs) (i + 1) (t + d),
          t + d ≤ sub2.start ∧
          sub2.start < subtitlesDuration (parseScriptAux b w (r :: rs) (i + 1) (t + d)) ∧
          sub2.«end» ≤ subtitlesDuration (parseScriptAux b w (r :: rs) (i + 1) (t + d)) :=
        ih (i + 1) (t + d) hrest
      obtain ⟨sub2, L2, hR, hstart2, hdur2⟩ :
          ∃ sub2 L2, parseScriptAux b w (r :: rs) (i + 1) (t + d) = sub2 :: L2 ∧
            sub2.start = t + d ∧ 0 < sub2.duration := by
        rw [parseScriptAux_cons b w r rs (i + 1) _ (hrest r (by simp))]
        refine ⟨_, _, rfl, rfl, ?_⟩
        have := mul_nonneg (Nat.cast_nonneg (wordTokens (jsTrim r)).length) hw
        simp only
        linarith
      have hsub2 := hhead sub2 (hR ▸ List.mem_cons_self _ _)
      have hlt : t + d < subtitlesDuration (parseScriptAux b w (r :: rs) (i + 1) (t + d)) := by
        have hend2 := (parseScriptAux_mem b w (r :: rs) (i + 1) (t + d) hrest
          sub2 (hR ▸ List.mem_cons_self _ _)).1
        calc t + d = sub2.start := hstart2.symm
          _ < sub2.«end» := by rw [hend2]; linarith
          _ ≤ _ := hsub2.2.2
      rcases List.mem_cons.mp hsub with rfl | hsub
      · refine ⟨le_refl t, ?_, ?_⟩ <;> simp <;> linarith
      · have := hhead sub hsub
        exact ⟨by linarith [this.1], this.2.1, this.2.2⟩

theorem scenarioA_eval :
    parseScript scenarioA 3 0.3 =
      [{ id := 1, text := ['H', 'e', 'l', 'l', 'o', ' ', 'w', 'o', 'r', 'l', 'd'],
         start := 0, «end» := 3.6, duration := 3.6 },
       { id := 2,
         text := ['T', 'h', 'i', 's', ' ', 'i', 's', ' ', 'a', ' ', 't', 'e', 's', 't'],
         start := 3.6, «end» := 7.8, duration := 4.2 }] := by
  simp +decide [parseScript, parseScriptAux, nonBlankLines, scenarioA, jsTrim,
    dropLeadingWs, splitByP, wordTokens]
  norm_num

theorem truncateSubtitles_eq_self (subs : List Subtitle) (w : ℚ)
    (h : ∀ sub ∈ subs, sub.start < w ∧ sub.«end» ≤ w) :
    truncateSubtitles subs w = subs := by
  rw [truncateSubtitles,
    List.filter_eq_self.mpr (fun sub hsub => by simpa using (h sub hsub).1)]
  conv_rhs => rw [← List.map_id subs]
  apply List.map_congr_left
  intro sub hsub
  rw [if_neg (not_lt.mpr (h sub hsub).2)]
  rfl

/-- Claim C1: for every script with at least one non-blank line and every
validated options record, the script parser lays the cues out back-to-back
from time 0: the first cue starts at 0, each cue's end equals the next
cue's start, starts are non-decreasing, and there is exactly one cue per
non-blank input line in input order. -/
theorem parseScript_gapless_tiling (script : List Char) (b w : ℚ)
    (hb : 0 < b) (hw : 0 ≤ w) (hnb : nonBlankLines script ≠ []) :
    parseScript script b w ≠ [] ∧
    (parseScript script b w).head?.map Subtitle.start = some 0 ∧
    List.Chain' (fun a c => a.«end» = c.start) (parseScript script b w) ∧
    List.Chain' (fun a c => a.start ≤ c.start) (parseScript script b w) ∧
    (parseScript script b w).map Subtitle.text =
      (nonBlankLines script).map jsTrim := by
  have hall : ∀ l ∈ nonBlankLines script, jsTrim l ≠ [] :=
    fun l hl => nonBlankLines_trim_ne hl
  refine ⟨?_, ?_, parseScriptAux_chain_end b w _ 0 0 hall,
    parseScriptAux_chain_start b w hb hw _ 0 0 hall,
    parseScriptAux_map_text b w _ 0 0 hall⟩
  · intro hempty
    have hlen := parseScriptAux_length b w (nonBlankLines script) 0 0 hall
    rw [parseScript] at hempty
    rw [hempty] at hlen
    exact hnb (List.eq_nil_of_length_eq_zero hlen.symm)
  · obtain ⟨l, rest, hl⟩ := List.exists_cons_of_ne_nil hnb
    rw [parseScript, hl,
      parseScriptAux_cons b w l rest 0 0 (hall l (hl ▸ List.mem_cons_self _ _))]
    rfl

/-- Witness for C1 at Scenario A's script with the default options. -/
theorem parseScript_gapless_tiling_witness :
    parseScript scenarioA 3 0.3 ≠ [] ∧
    (parseScript scenarioA 3 0.3).head?.map Subtitle.start = some 0 ∧
    List.Chain' (fun a c => a.«end» = c.start) (parseScript scenarioA 3 0.3) ∧
    List.Chain' (fun a c => a.start ≤ c.start) (parseScript scenarioA 3 0.3) ∧
    (parseScript scenarioA 3 0.3).map Subtitle.text =
      (nonBlankLines scenarioA).map jsTrim :=
  parseScript_gapless_tiling scenarioA 3 0.3 (by decide) (by norm_num) (by decide)

/-- Claim C4: every cue's duration is exactly
`baseDuration + wordCount * wordDuration` with the word count taken on the
trimmed line, its end is start plus duration, and the Scenario A script
with the defaults yields cue times (0, 3.6) and (3.6, 7.8) exactly. -/
theorem parseScript_duration_formula (script : List Char) (b w : ℚ)
    (sub : Subtitle) (hsub : sub ∈ parseScript script b w) :
    sub.duration = b + ((wordTokens sub.text).length : ℚ) * w ∧
    sub.«end» = sub.start + sub.duration ∧
    (parseScript scenarioA 3 0.3).map (fun c => (c.start, c.«end»)) =
      [(0, 3.6), (3.6, 7.8)] := by
  have hall : ∀ l ∈ nonBlankLines script, jsTrim l ≠ [] :=
    fun l hl => nonBlankLines_trim_ne hl
  have h := parseScriptAux_mem b w (nonBlankLines script) 0 0 hall sub hsub
  exact ⟨h.2, h.1, by rw [scenarioA_eval]; simp⟩

/-- Witness for C4 at the first Scenario A cue. -/
theorem parseScript_duration_formula_witness :
    (parseScript scenarioA 3 0.3).map (fun c => (c.start, c.«end»)) =
      [(0, 3.6), (3.6, 7.8)] :=
  (parseScript_duration_formula scenarioA 3 0.3
    { id := 1, text := ['H', 'e', 'l', 'l', 'o', ' ', 'w', 'o', 'r', 'l', 'd'],
      start := 0, «end» := 3.6, duration := 3.6 }
    (by rw [scenarioA_eval]; exact List.mem_cons_self _ _)).2.2

/-- Claim C2: when the video is at least as long as the script, the
truncate policy applies: the processing window is the minimum of the two
durations, every cue retained by the truncation starts strictly before the
window and ends at or before it with duration equal to end minus start,
and the last retained cue ends exactly at the window boundary. -/
theorem truncate_policy_window (script : List Char) (b w v : ℚ)
    (hb : 0 < b) (hw : 0 ≤ w) (hnb : nonBlankLines script ≠ [])
    (hvs : subtitlesDuration (parseScript script b w) ≤ v) :
    processingDuration v (subtitlesDuration (parseScript script b w)) =
      min v (subtitlesDuration (parseScript script b w)) ∧
    (∀ sub ∈ truncateSubtitles (parseScript script b w)
        (processingDuration v (subtitlesDuration (parseScript script b w))),
      sub.start < processingDuration v (subtitlesDuration (parseScript script b w)) ∧
      sub.«end» ≤ processingDuration v (subtitlesDuration (parseScript script b w)) ∧
      sub.duration = sub.«end» - sub.start) ∧
    subtitlesDuration (truncateSubtitles (parseScript script b w)
        (processingDuration v (subtitlesDuration (parseScript script b w)))) =
      processingDuration v (subtitlesDuration (parseScript script b w)) := by
  have hall : ∀ l ∈ nonBlankLines script, jsTrim l ≠ [] :=
    fun l hl => nonBlankLines_trim_ne hl
  have hbounds := parseScriptAux_bounds b w hb hw (nonBlankLines script) 0 0 hall
  have hmem := parseScriptAux_mem b w (nonBlankLines script) 0 0 hall
  rw [parseScript] at hvs ⊢
  set cues := parseScriptAux b w (nonBlankLines script) 0 0 with hc
  have hwin : processingDuration v (subtitlesDuration cues) = subtitlesDuration cues :=
    min_eq_right hvs
  have hfix : truncateSubtitles cues (processingDuration v (subtitlesDuration cues)) =
      cues := by
    rw [hwin]
    exact truncateSubtitles_eq_self cues _
      (fun sub hsub => ⟨(hbounds sub hsub).2.1, (hbounds sub hsub).2.2⟩)
  refine ⟨rfl, ?_, ?_⟩
  · intro sub hsub
    rw [hfix] at hsub
    rw [hwin]
    refine ⟨(hbounds sub hsub).2.1, (hbounds sub hsub).2.2, ?_⟩
    have := (hmem sub hsub).1
    linarith
  · rw [hfix, hwin]

/-- Witness for C2 at Scenario A with a 10-second video. -/
theorem truncate_policy_window_witness :
    processingDuration 10 (subtitlesDuration (parseScript scenarioA 3 0.3)) =
      min 10 (subtitlesDuration (parseScript scenarioA 3 0.3)) ∧
    (∀ sub ∈ truncateSubtitles (parseScript scenarioA 3 0.3)
        (processingDuration 10 (subtitlesDuration (parseScript scenarioA 3 0.3))),
      sub.start < processingDuration 10 (subtitlesDuration (parseScript scenarioA 3 0.3)) ∧
      sub.«end» ≤ processingDuration 10 (subtitlesDuration (parseScript scenarioA 3 0.3)) ∧
      sub.duration = sub.«end» - sub.start) ∧
    subtitlesDuration (truncateSubtitles (parseScript scenarioA 3 0.3)
        (processingDuration 10 (subtitlesDuration (parseScript scenarioA 3 0.3)))) =
      processingDuration 10 (subtitlesDuration (parseScript scenarioA 3 0.3)) :=
  truncate_policy_window scenarioA 3 0.3 10 (by decide) (by norm_num) (by decide)
    (by rw [scenarioA_eval]; simp [subtitlesDuration]; norm_num)

/-- Claim C3: when the script outlasts the video, the pad policy applies:
the encode concatenates the captioned source with a black padding clip of
duration `scriptDuration - videoDuration` at the source's exact
dimensions, and the effective window is the script duration. -/
theorem pad_policy_blank_clip (script : List Char) (b w v : ℚ) (wd ht : ℕ)
    (hlt : v < subtitlesDuration (parseScript script b w)) :
    buildEncodeFilter v (subtitlesDuration (parseScript script b w)) wd ht =
      .padConcat (subtitlesDuration (parseScript script b w) - v) wd ht ∧
    totalDuration v (subtitlesDuration (parseScript script b w)) =
      subtitlesDuration (parseScript script b w) := by
  exact ⟨by simp [buildEncodeFilter, hlt], max_eq_right (le_of_lt hlt)⟩

/-- Witness for C3: Scenario B, a 5-second video with the 7.8-second
Scenario A script, gives a 2.8-second blank clip and a 7.8-second window. -/
theorem pad_policy_blank_clip_witness :
    buildEncodeFilter 5 (subtitlesDuration (parseScript scenarioA 3 0.3)) 640 360 =
      .padConcat 2.8 640 360 ∧
    totalDuration 5 (subtitlesDuration (parseScript scenarioA 3 0.3)) = 7.8 := by
  have h := pad_policy_blank_clip scenarioA 3 0.3 5 640 360
    (by rw [scenarioA_eval]; simp [subtitlesDuration]; norm_num)
  refine ⟨?_, ?_⟩
  · rw [h.1, scenarioA_eval]
    simp [subtitlesDuration]
    norm_num
  · rw [h.2, scenarioA_eval]
    simp [subtitlesDuration]

theorem encodeProgressValue_band (t window : ℚ) (ht : 0 ≤ t) (hw : 0 < window) :
    55 ≤ encodeProgressValue t window ∧ encodeProgressValue t window ≤ 95 := by
  have h0 : (0 : ℚ) ≤ min 1 (t / window) :=
    le_min (by norm_num) (div_nonneg ht hw.le)
  have h1 : min 1 (t / window) ≤ 1 := min_le_left _ _
  have hlo : (55 : ℚ) ≤ min 95 (55 + min 1 (t / window) * 40) := by
    refine le_min (by norm_num) ?_
    nlinarith
  have hhi : min 95 (55 + min 1 (t / window) * 40) ≤ 95 := min_le_left _ _
  constructor
  · exact Int.le_floor.mpr (by push_cast; linarith)
  · have : (⌊min 95 (55 + min 1 (t / window) * 40) + 1 / 2⌋ : ℤ) < 96 :=
      Int.floor_lt.mpr (by push_cast; linarith)
    unfold encodeProgressValue jsRound
    omega

theorem encodeProgressValue_mono (window : ℚ) (hw : 0 < window) {t t' : ℚ}
    (h : t ≤ t') :
    encodeProgressValue t window ≤ encodeProgressValue t' window := by
  apply Int.floor_le_floor
  have hdiv : t / window ≤ t' / window := (div_le_div_right hw).mpr h
  have hmin : min 1 (t / window) ≤ min 1 (t' / window) := min_le_min le_rfl hdiv
  have : min 95 (55 + min 1 (t / window) * 40) ≤
      min 95 (55 + min 1 (t' / window) * 40) := by
    refine min_le_min le_rfl ?_
    nlinarith
  linarith

theorem encodeProgressValue_map_band (encodeTimes : List ℚ) (window : ℚ)
    (hw : 0 < window) (hnn : ∀ t ∈ encodeTimes, 0 ≤ t) :
    ∀ x ∈ encodeTimes.map (fun t => encodeProgressValue t window),
      55 ≤ x ∧ x ≤ 95 := by
  intro x hx
  obtain ⟨t, ht, rfl⟩ := List.mem_map.mp hx
  exact encodeProgressValue_band t window (hnn t ht) hw

theorem encodeProgressValue_map_chain (encodeTimes : List ℚ) (window : ℚ)
    (hw : 0 < window) (hchain : List.Chain' (fun a c => a ≤ c) encodeTimes) :
    List.Chain' (fun a c => a ≤ c)
      (encodeTimes.map (fun t => encodeProgressValue t window)) :=
  (List.chain'_map _).mpr
    (hchain.imp fun _ _ h => encodeProgressValue_mono window hw h)

/-- Counterexample to claim C6: on a run whose probe fails, the tracker
receives the writes 5, 10, 15, 20 and then 0 — the terminal error write
regresses below earlier values, so the write sequence for that job is
not non-decreasing. -/
theorem progress_regression_counterexample :
    progressWrites .probeFail [] 1 = [5, 10, 15, 20, 0] ∧
    ¬ List.Chain' (fun a c => a ≤ c) (progressWrites .probeFail [] 1) := by
  refine ⟨rfl, ?_⟩
  show ¬ List.Chain' (fun a c => a ≤ c) [5, 10, 15, 20, 0]
  simp +decide [List.chain'_cons]

/-- Claim C6 (amended): with the encoder's elapsed-time markers
non-negative and non-decreasing, the progress writes of a successful run
are non-decreasing; on every failing run all writes except the last are
non-decreasing and the final write is the 0 of the terminal error path. -/
theorem progressWrites_monotone (outcome : RunOutcome) (encodeTimes : List ℚ)
    (window : ℚ) (hw : 0 < window)
    (hchain : List.Chain' (fun a c => a ≤ c) encodeTimes)
    (hnn : ∀ t ∈ encodeTimes, 0 ≤ t) :
    (outcome = .success →
      List.Chain' (fun a c => a ≤ c) (progressWrites outcome encodeTimes window)) ∧
    (outcome ≠ .success →
      List.Chain' (fun a c => a ≤ c)
        ((progressWrites outcome encodeTimes window).dropLast) ∧
      (progressWrites outcome encodeTimes window).getLast? = some 0) := by
  have hband := encodeProgressValue_map_band encodeTimes window hw hnn
  have hmchain := encodeProgressValue_map_chain encodeTimes window hw hchain
  have hglue : ∀ x ∈ (encodeTimes.map fun t => encodeProgressValue t window).getLast?,
      ∀ y ∈ ([98, 100] : List ℤ).head?, x ≤ y := by
    intro x hx y hy
    obtain ⟨hne, rfl⟩ := List.mem_getLast?_eq_getLast hx
    simp only [List.head?_cons, Option.mem_def, Option.some.injEq] at hy
    have := (hband _ (List.getLast_mem hne)).2
    omega
  cases outcome with
  | emptyScript =>
    refine ⟨fun h => (nomatch h), fun _ => ⟨?_, ?_⟩⟩
    · show List.Chain' (fun a c => a ≤ c) [5, 10, 15]
      simp +decide [List.chain'_cons]
    · rfl
  | probeFail =>
    refine ⟨fun h => (nomatch h), fun _ => ⟨?_, ?_⟩⟩
    · show List.Chain' (fun a c => a ≤ c) [5, 10, 15, 20]
      simp +decide [List.chain'_cons]
    · rfl
  | previewFail =>
    refine ⟨fun h => (nomatch h), fun _ => ⟨?_, ?_⟩⟩
    · show List.Chain' (fun a c => a ≤ c) [5, 10, 15, 20, 30, 35, 40]
      simp +decide [List.chain'_cons]
    · rfl
  | encodeFail =>
    refine ⟨fun h => (nomatch h), fun _ => ⟨?_, ?_⟩⟩
    · show List.Chain' (fun a c => a ≤ c)
        ((([5, 10, 15, 20, 30, 35, 40, 50, 55] ++
          encodeTimes.map fun t => encodeProgressValue t window) ++ [0]).dropLast)
      rw [List.dropLast_concat]
      refine List.chain'_append.mpr ⟨by simp +decide [List.chain'_cons], hmchain, ?_⟩
      intro x hx y hy
      simp only [List.getLast?_cons_cons, List.getLast?_singleton,
        Option.mem_def, Option.some.injEq] at hx
      subst hx
      cases encodeTimes with
      | nil => simp at hy
      | cons t ts =>
        simp only [List.map_cons, List.head?_cons, Option.mem_def,
          Option.some.injEq] at hy
        subst hy
        exact (encodeProgressValue_band t window (hnn t (by simp)) hw).1
    · show ((([5, 10, 15, 20, 30, 35, 40, 50, 55] : List ℤ) ++
          (encodeTimes.map fun t => encodeProgressValue t window) ++ [0])).getLast? =
        (some 0 : Option ℤ)
      rw [List.getLast?_concat]
  | success =>
    refine ⟨fun _ => ?_, fun h => absurd rfl h⟩
    show List.Chain' (fun a c => a ≤ c)
      ([5, 10, 15, 20, 30, 35, 40, 50, 55] ++
        ((encodeTimes.map fun t => encodeProgressValue t window) ++ [98, 100]))
    refine List.chain'_append.mpr
      ⟨by simp +decide [List.chain'_cons],
        List.chain'_append.mpr ⟨hmchain, by simp +decide [List.chain'_cons], hglue⟩, ?_⟩
    intro x hx y hy
    simp only [List.getLast?_cons_cons, List.getLast?_singleton,
      Option.mem_def, Option.some.injEq] at hx
    subst hx
    cases encodeTimes with
    | nil =>
      simp only [List.map_nil, List.nil_append, List.head?_cons,
        Option.mem_def, Option.some.injEq] at hy
      omega
    | cons t ts =>
      simp only [List.map_cons, List.cons_append, List.head?_cons,
        Option.mem_def, Option.some.injEq] at hy
      subst hy
      exact (encodeProgressValue_band t window (hnn t (by simp)) hw).1

/-- Witness for the amended C6 at a successful run with markers 1 and 2
over a 2-second window. -/
theorem progressWrites_monotone_witness :
    (RunOutcome.success = .success →
      List.Chain' (fun a c => a ≤ c) (progressWrites .success [1, 2] 2)) ∧
    (RunOutcome.success ≠ .success →
      List.Chain' (fun a c => a ≤ c) ((progressWrites .success [1, 2] 2).dropLast) ∧
      (progressWrites .success [1, 2] 2).getLast? = some 0) :=
  progressWrites_monotone .success [1, 2] 2 (by norm_num)
    (by norm_num [List.chain'_cons])
    (by intro t ht; simp at ht; rcases ht with rfl | rfl <;> norm_num)

/-- Counterexample to claim C7: an all-blank script with both files
present is not rejected synchronously — the handler answers with a job
id and the progress entry has already been created. -/
theorem empty_script_sync_counterexample :
    captionSubmit true true [' ', '\n'] 3 2 = .emptyScript ∧
    (submitObs (captionSubmit true true [' ', '\n'] 3 2)).respondsWithJobId = true ∧
    (submitObs (captionSubmit true true [' ', '\n'] 3 2)).progressEntryCreated = true := by
  decide

/-- Claim C7 (amended): a script with zero non-blank lines is detected
only inside the background task: the submitter still receives a success
response carrying the job id, a progress entry is created, the
background task stores the empty-script error payload, and media
processing (the probe and everything after it) is never started. -/
theorem empty_script_handled_in_background (script : List Char) (b w : ℚ)
    (h : nonBlankLines script = []) :
    captionSubmit true true script b w = .emptyScript ∧
    submitObs (captionSubmit true true script b w) =
      { respondsWithJobId := true, progressEntryCreated := true,
        probeStarted := false, emptyScriptErrorStored := true } := by
  have hempty : parseScript script b w = [] := by
    rw [parseScript, h]; rfl
  constructor
  · simp [captionSubmit, hempty]
  · simp [captionSubmit, hempty, submitObs]

/-- Witness for the amended C7 at a one-blank-line script. -/
theorem empty_script_handled_in_background_witness :
    captionSubmit true true [' '] 3 2 = .emptyScript ∧
    submitObs (captionSubmit true true [' '] 3 2) =
      { respondsWithJobId := true, progressEntryCreated := true,
        probeStarted := false, emptyScriptErrorStored := true } :=
  empty_script_handled_in_background [' '] 3 2 (by decide)

/-- Claim C8: the progress read is total — an id absent from the
registry yields the default shape with progress 0 and the
`Starting...` status, and a present id yields exactly the stored
entry. -/
theorem progressRead_never_errors (registry : ℕ → Option ProgressEntry)
    (jobId : ℕ) :
    (registry jobId = none →
      progressRead registry jobId = defaultProgressEntry) ∧
    (∀ entry, registry jobId = some entry →
      progressRead registry jobId = entry) ∧
    defaultProgressEntry.progress = 0 ∧
    defaultProgressEntry.status =
      ['S', 't', 'a', 'r', 't', 'i', 'n', 'g', '.', '.', '.'] := by
  refine ⟨?_, ?_, rfl, rfl⟩
  · intro h; simp [progressRead, h]
  · intro e he; simp [progressRead, he]

/-- Witness for C8 at an empty registry. -/
theorem progressRead_never_errors_witness :
    progressRead (fun _ => none) 7 = defaultProgressEntry :=
  (progressRead_never_errors (fun _ => none) 7).1 rfl

/-- Claim C9: for a parsed `time=HH:MM:SS.ss` marker and a positive
window, the tracked percent equals
`round(min(95, 55 + min(1, elapsed / window) * 40))` and lies in the
55–95 band. -/
theorem ffmpeg_progress_band (h m : ℕ) (s window : ℚ) (hs : 0 ≤ s)
    (hw : 0 < window) :
    encodeProgressValue (ffmpegElapsed h m s) window =
      jsRound (min 95 (55 + min 1 (ffmpegElapsed h m s / window) * 40)) ∧
    55 ≤ encodeProgressValue (ffmpegElapsed h m s) window ∧
    encodeProgressValue (ffmpegElapsed h m s) window ≤ 95 := by
  have helapsed : 0 ≤ ffmpegElapsed h m s := by
    unfold ffmpegElapsed
    positivity
  exact ⟨rfl, (encodeProgressValue_band _ _ helapsed hw).1,
    (encodeProgressValue_band _ _ helapsed hw).2⟩

/-- Witness for C9 at marker 00:00:01.00 with a 2-second window. -/
theorem ffmpeg_progress_band_witness :
    encodeProgressValue (ffmpegElapsed 0 0 1) 2 =
      jsRound (min 95 (55 + min 1 (ffmpegElapsed 0 0 1 / 2) * 40)) ∧
    55 ≤ encodeProgressValue (ffmpegElapsed 0 0 1) 2 ∧
    encodeProgressValue (ffmpegElapsed 0 0 1) 2 ≤ 95 :=
  ffmpeg_progress_band 0 0 1 2 (by norm_num) (by norm_num)

/-- Claim C10: a supplied option value parsing to 0 falls back to the
default (3, 0.3 and 24 — not the range minima 0.1, 0.1 and 12), exactly
as an absent or malformed value does, while every other number is
clamped to the nearest range bound. -/
theorem options_zero_uses_default (x : ℚ) (n : ℤ) (hx : x ≠ 0) (hn : n ≠ 0) :
    clampedBaseDuration (some 0) = 3 ∧ clampedBaseDuration none = 3 ∧
    clampedWordDuration (some 0) = 0.3 ∧ clampedWordDuration none = 0.3 ∧
    clampedFontSize (some 0) = 24 ∧ clampedFontSize none = 24 ∧
    clampedBaseDuration (some x) = max 0.1 (min 10 x) ∧
    clampedWordDuration (some x) = max 0.1 (min 2 x) ∧
    clampedFontSize (some n) = max 12 (min 48 n) ∧
    (x < 0.1 → clampedBaseDuration (some x) = 0.1) ∧
    (10 < x → clampedBaseDuration (some x) = 10) ∧
    (3 : ℚ) ≠ 0.1 ∧ (0.3 : ℚ) ≠ 0.1 ∧ (24 : ℤ) ≠ 12 := by
  have hbase : clampedBaseDuration (some x) = max 0.1 (min 10 x) := by
    simp [clampedBaseDuration, jsOrQ, hx]
  refine ⟨?_, ?_, ?_, ?_, ?_, ?_, hbase, ?_, ?_, ?_, ?_, ?_, ?_, ?_⟩
  · simp [clampedBaseDuration, jsOrQ]; norm_num
  · simp [clampedBaseDuration, jsOrQ]; norm_num
  · simp [clampedWordDuration, jsOrQ]; norm_num
  · simp [clampedWordDuration, jsOrQ]; norm_num
  · simp [clampedFontSize, jsOrZ]
  · simp [clampedFontSize, jsOrZ]
  · simp [clampedWordDuration, jsOrQ, hx]
  · simp [clampedFontSize, jsOrZ, hn]
  · intro hlt
    rw [hbase, min_eq_right (by linarith), max_eq_left (by linarith)]
  · intro hgt
    rw [hbase, min_eq_left (by linarith)]
    exact max_eq_right (by norm_num)
  · norm_num
  · norm_num
  · norm_num

/-- Witness for C10 at the out-of-range numbers 100 and -5. -/
theorem options_zero_uses_default_witness :
    clampedBaseDuration (some 0) = 3 ∧ clampedBaseDuration none = 3 ∧
    clampedWordDuration (some 0) = 0.3 ∧ clampedWordDuration none = 0.3 ∧
    clampedFontSize (some 0) = 24 ∧ clampedFontSize none = 24 ∧
    clampedBaseDuration (some 100) = max 0.1 (min 10 100) ∧
    clampedWordDuration (some 100) = max 0.1 (min 2 100) ∧
    clampedFontSize (some (-5)) = max 12 (min 48 (-5)) ∧
    ((100 : ℚ) < 0.1 → clampedBaseDuration (some 100) = 0.1) ∧
    ((10 : ℚ) < 100 → clampedBaseDuration (some 100) = 10) ∧
    (3 : ℚ) ≠ 0.1 ∧ (0.3 : ℚ) ≠ 0.1 ∧ (24 : ℤ) ≠ 12 :=
  options_zero_uses_default 100 (-5) (by norm_num) (by norm_num)

theorem digitChar_isDigit {m : ℕ} (h : m < 10) :
    (Nat.digitChar m).isDigit = true := by
  interval_cases m <;> decide

theorem digitVal_digitChar {m : ℕ} (h : m < 10) :
    digitVal (Nat.digitChar m) = m := by
  interval_cases m <;> decide

theorem isDigit_ne_sep {c : Char} (h : c.isDigit = true) :
    c ≠ ':' ∧ c ≠ ',' ∧ c ≠ ' ' ∧ c ≠ '\n' ∧ c ≠ '-' ∧ c ≠ '>' := by
  refine ⟨?_, ?_, ?_, ?_, ?_, ?_⟩ <;> rintro rfl <;> exact absurd h (by decide)

theorem natToStringAux_spec :
    ∀ (fuel n : ℕ) (acc : List Char), n < fuel →
      ∃ ds : List Char, natToStringAux fuel n acc = ds ++ acc ∧ ds ≠ [] ∧
        (∀ c ∈ ds, c.isDigit = true) ∧
        ∀ a : ℕ, List.foldl (fun a c => 10 * a + digitVal c) a ds =
          a * 10 ^ ds.length + n := by
  intro fuel
  induction fuel with
  | zero => intro n acc h; omega
  | succ fuel ih =>
    intro n acc h
    by_cases h10 : n < 10
    · refine ⟨[Nat.digitChar n], by simp [natToStringAux, h10], by simp, ?_, ?_⟩
      · intro c hc
        simp only [List.mem_singleton] at hc
        subst hc
        exact digitChar_isDigit h10
      · intro a
        simp [digitVal_digitChar h10]
        ring
    · have hdiv : n / 10 < n := Nat.div_lt_self (by omega) (by omega)
      have hrec : n / 10 < fuel := by omega
      obtain ⟨ds, heq, hne, hdig, hval⟩ :=
        ih (n / 10) (Nat.digitChar (n % 10) :: acc) hrec
      have hmod : n % 10 < 10 := Nat.mod_lt n (by omega)
      refine ⟨ds ++ [Nat.digitChar (n % 10)], ?_, by simp, ?_, ?_⟩
      · rw [natToStringAux, if_neg h10, heq]
        simp
      · intro c hc
        rcases List.mem_append.mp hc with hc | hc
        · exact hdig c hc
        · simp only [List.mem_singleton] at hc
          subst hc
          exact digitChar_isDigit hmod
      · intro a
        rw [List.foldl_append, hval a]
        simp only [List.foldl_cons, List.foldl_nil, List.length_append,
          List.length_singleton]
        rw [digitVal_digitChar hmod]
        calc 10 * (a * 10 ^ ds.length + n / 10) + n % 10
            = a * (10 ^ ds.length * 10) + (10 * (n / 10) + n % 10) := by ring
          _ = a * 10 ^ (ds.length + 1) + n := by rw [Nat.div_add_mod, pow_succ]

theorem natToString_digits (n : ℕ) : ∀ c ∈ natToString n, c.isDigit = true := by
  obtain ⟨ds, heq, _, hdig, _⟩ := natToStringAux_spec (n + 1) n [] (by omega)
  rw [natToString, heq, List.append_nil]
  exact hdig

theorem padZeros_digits (k n : ℕ) :
    ∀ c ∈ padZeros k (natToString n), c.isDigit = true := by
  intro c hc
  rcases List.mem_append.mp hc with hc | hc
  · rw [List.eq_of_mem_replicate hc]; decide
  · exact natToString_digits n c hc

theorem parseNat_padZeros_natToString (k n : ℕ) :
    parseNat (padZeros k (natToString n)) = some n := by
  obtain ⟨ds, heq, hne, hdig, hval⟩ := natToStringAux_spec (n + 1) n [] (by omega)
  have hds : natToString n = ds := by rw [natToString, heq, List.append_nil]
  have hnonempty : padZeros k (natToString n) ≠ [] := by
    rw [hds, padZeros]
    simp [hne]
  rw [parseNat, if_pos ⟨hnonempty, padZeros_digits k n⟩, hds, padZeros]
  have hzero : ∀ j : ℕ,
      List.foldl (fun a c => 10 * a + digitVal c) 0 (List.replicate j '0') = 0 := by
    intro j
    induction j with
    | zero => rfl
    | succ j ihj => simpa [List.replicate_succ, digitVal] using ihj
  rw [List.foldl_append, hzero, hval 0]
  simp

theorem splitByP_ne_nil (p : Char → Bool) (cs : List Char) : splitByP p cs ≠ [] := by
  induction cs with
  | nil => simp [splitByP]
  | cons c cs ih =>
    rw [splitByP]
    rcases hx : splitByP p cs with _ | ⟨t, ts⟩
    · exact absurd hx ih
    · by_cases hc : p c <;> simp [hc]

theorem splitByP_cons_sep (p : Char → Bool) (c : Char) (B : List Char)
    (hc : p c = true) : splitByP p (c :: B) = [] :: splitByP p B := by
  rw [splitByP]
  cases h : splitByP p B with
  | nil => exact absurd h (splitByP_ne_nil p B)
  | cons t ts => simp [hc]

theorem splitByP_not_mem (p : Char → Bool) (cs : List Char)
    (h : ∀ c ∈ cs, p c = false) : splitByP p cs = [cs] := by
  induction cs with
  | nil => rfl
  | cons c cs ih =>
    rw [splitByP, ih (fun x hx => h x (List.mem_cons_of_mem _ hx))]
    simp [h c (List.mem_cons_self _ _)]

theorem splitByP_append (p : Char → Bool) (A : List Char) (c : Char)
    (B : List Char) (hA : ∀ a ∈ A, p a = false) (hc : p c = true) :
    splitByP p (A ++ c :: B) = A :: splitByP p B := by
  induction A with
  | nil =>
    rw [List.nil_append, splitByP_cons_sep p c B hc]
  | cons a A ih =>
    rw [List.cons_append, splitByP, ih (fun x hx => hA x (List.mem_cons_of_mem _ hx))]
    simp [hA a (List.mem_cons_self _ _)]

theorem formatTime_eq (q : ℚ) :
    formatTime q =
      padZeros 2 (natToString (⌊q / 3600⌋).toNat) ++ ':' ::
        (padZeros 2 (natToString (⌊jsMod q 3600 / 60⌋).toNat) ++ ':' ::
          (padZeros 2 (natToString (⌊jsMod q 60⌋).toNat) ++ ',' ::
            padZeros 3 (natToString (⌊jsMod q 1 * 1000⌋).toNat))) := rfl

theorem formatTime_chars (q : ℚ) :
    ∀ c ∈ formatTime q, c.isDigit = true ∨ c = ':' ∨ c = ',' := by
  intro c hc
  rw [formatTime_eq] at hc
  simp only [List.mem_append, List.mem_cons] at hc
  rcases hc with hc | rfl | hc | rfl | hc | rfl | hc
  · exact Or.inl (padZeros_digits _ _ c hc)
  · exact Or.inr (Or.inl rfl)
  · exact Or.inl (padZeros_digits _ _ c hc)
  · exact Or.inr (Or.inl rfl)
  · exact Or.inl (padZeros_digits _ _ c hc)
  · exact Or.inr (Or.inr rfl)
  · exact Or.inl (padZeros_digits _ _ c hc)

theorem parseSRTTime_formatTime (q : ℚ) :
    parseSRTTime (formatTime q) =
      some (((⌊q / 3600⌋).toNat : ℚ) * 3600 +
        ((⌊jsMod q 3600 / 60⌋).toNat : ℚ) * 60 +
        ((⌊jsMod q 60⌋).toNat : ℚ) +
        ((⌊jsMod q 1 * 1000⌋).toNat : ℚ) / 1000) := by
  have hH : ∀ a ∈ padZeros 2 (natToString (⌊q / 3600⌋).toNat),
      (fun c => decide (c = ':')) a = false := fun a ha => by
    simp [(isDigit_ne_sep (padZeros_digits _ _ a ha)).1]
  have hM : ∀ a ∈ padZeros 2 (natToString (⌊jsMod q 3600 / 60⌋).toNat),
      (fun c => decide (c = ':')) a = false := fun a ha => by
    simp [(isDigit_ne_sep (padZeros_digits _ _ a ha)).1]
  have hS : ∀ a ∈ padZeros 2 (natToString (⌊jsMod q 60⌋).toNat),
      (fun c => decide (c = ',')) a = false := fun a ha => by
    simp [(isDigit_ne_sep (padZeros_digits _ _ a ha)).2.1]
  have hMS : ∀ a ∈ padZeros 3 (natToString (⌊jsMod q 1 * 1000⌋).toNat),
      (fun c => decide (c = ',')) a = false := fun a ha => by
    simp [(isDigit_ne_sep (padZeros_digits _ _ a ha)).2.1]
  have hrest : ∀ a ∈ padZeros 2 (natToString (⌊jsMod q 60⌋).toNat) ++ ',' ::
      padZeros 3 (natToString (⌊jsMod q 1 * 1000⌋).toNat),
      (fun c => decide (c = ':')) a = false := by
    intro a ha
    rcases List.mem_append.mp ha with ha | ha
    · simp [(isDigit_ne_sep (padZeros_digits _ _ a ha)).1]
    · rcases List.mem_cons.mp ha with rfl | ha
      · decide
      · simp [(isDigit_ne_sep (padZeros_digits _ _ a ha)).1]
  have hsplit1 : splitByP (fun c => c = ':') (formatTime q) =
      padZeros 2 (natToString (⌊q / 3600⌋).toNat) ::
        padZeros 2 (natToString (⌊jsMod q 3600 / 60⌋).toNat) ::
        [padZeros 2 (natToString (⌊jsMod q 60⌋).toNat) ++ ',' ::
          padZeros 3 (natToString (⌊jsMod q 1 * 1000⌋).toNat)] := by
    rw [formatTime_eq, splitByP_append _ _ ':' _ hH (by simp),
      splitByP_append _ _ ':' _ hM (by simp), splitByP_not_mem _ _ hrest]
  have hsplit2 : splitByP (fun c => c = ',')
      (padZeros 2 (natToString (⌊jsMod q 60⌋).toNat) ++ ',' ::
        padZeros 3 (natToString (⌊jsMod q 1 * 1000⌋).toNat)) =
      [padZeros 2 (natToString (⌊jsMod q 60⌋).toNat),
        padZeros 3 (natToString (⌊jsMod q 1 * 1000⌋).toNat)] := by
    rw [splitByP_append _ _ ',' _ hS (by simp), splitByP_not_mem _ _ hMS]
  simp only [parseSRTTime, hsplit1, hsplit2, parseNat_padZeros_natToString]

theorem formatTime_value (q : ℚ) (hq : 0 ≤ q) :
    ((⌊q / 3600⌋).toNat : ℚ) * 3600 + ((⌊jsMod q 3600 / 60⌋).toNat : ℚ) * 60 +
      ((⌊jsMod q 60⌋).toNat : ℚ) + ((⌊jsMod q 1 * 1000⌋).toNat : ℚ) / 1000 =
    msTrunc q := by
  have h36 : (0 : ℚ) < 3600 := by norm_num
  have h60 : (0 : ℚ) < 60 := by norm_num
  set a := ⌊q / 3600⌋ with ha
  have ha0 : (0 : ℤ) ≤ a := Int.floor_nonneg.mpr (div_nonneg hq (by norm_num))
  set r1 := q - 3600 * (a : ℚ) with hr1def
  have hr1 : jsMod q 3600 = r1 := by
    rw [jsMod, hr1def, ha]
  have hr1nn : 0 ≤ r1 := by
    have hfle : ((a : ℚ)) ≤ q / 3600 := by rw [ha]; exact Int.floor_le _
    have := (le_div_iff h36).mp hfle
    rw [hr1def]
    linarith
  set b := ⌊r1 / 60⌋ with hb
  have hb0 : (0 : ℤ) ≤ b := Int.floor_nonneg.mpr (div_nonneg hr1nn (by norm_num))
  set r2 := r1 - 60 * (b : ℚ) with hr2def
  have hfloor60 : ⌊q / 60⌋ = 60 * a + b := by
    have hq60 : q / 60 = r1 / 60 + ((60 * a : ℤ) : ℚ) := by
      rw [hr1def]
      push_cast
      ring
    rw [hq60, Int.floor_add_int, ← hb]
    omega
  have hr2 : jsMod q 60 = r2 := by
    rw [jsMod, hfloor60, hr2def, hr1def]
    push_cast
    ring
  have hr2nn : 0 ≤ r2 := by
    have hfle : ((b : ℚ)) ≤ r1 / 60 := by rw [hb]; exact Int.floor_le _
    have := (le_div_iff h60).mp hfle
    rw [hr2def]
    linarith
  set c := ⌊r2⌋ with hc
  have hc0 : (0 : ℤ) ≤ c := Int.floor_nonneg.mpr hr2nn
  have hfloorq : ⌊q⌋ = 3600 * a + 60 * b + c := by
    have hqr : q = r2 + ((3600 * a + 60 * b : ℤ) : ℚ) := by
      rw [hr2def, hr1def]
      push_cast
      ring
    rw [hqr, Int.floor_add_int, ← hc]
    omega
  have hmod1 : jsMod q 1 = q - (⌊q⌋ : ℚ) := by
    rw [jsMod]
    simp
  set d := ⌊(q - (⌊q⌋ : ℚ)) * 1000⌋ with hd
  have hd0 : (0 : ℤ) ≤ d := by
    rw [hd]
    refine Int.floor_nonneg.mpr (mul_nonneg ?_ (by norm_num))
    have := Int.floor_le q
    linarith
  have hfloor1000 : ⌊1000 * q⌋ = 1000 * ⌊q⌋ + d := by
    have hqd : 1000 * q = (q - (⌊q⌋ : ℚ)) * 1000 + ((1000 * ⌊q⌋ : ℤ) : ℚ) := by
      push_cast
      ring
    rw [hqd, Int.floor_add_int, ← hd]
    omega
  have hcast : ∀ z : ℤ, 0 ≤ z → ((z.toNat : ℕ) : ℚ) = (z : ℚ) := by
    intro z hz
    rw [← Int.cast_natCast, Int.toNat_of_nonneg hz]
  rw [hr1, hr2, hmod1, ← hb, ← hc, ← hd,
    hcast a ha0, hcast b hb0, hcast c hc0, hcast d hd0, msTrunc, hfloor1000]
  have hq' : (⌊q⌋ : ℚ) = 3600 * (a : ℚ) + 60 * (b : ℚ) + (c : ℚ) := by
    rw [hfloorq]
    push_cast
    ring
  push_cast
  rw [hq']
  ring

theorem parseSRTTime_formatTime_msTrunc (q : ℚ) (hq : 0 ≤ q) :
    parseSRTTime (formatTime q) = some (msTrunc q) := by
  rw [parseSRTTime_formatTime q, formatTime_value q hq]

theorem msTrunc_close (q : ℚ) : 0 ≤ q - msTrunc q ∧ q - msTrunc q < 1 / 1000 := by
  unfold msTrunc
  constructor
  · have h1 : ((⌊1000 * q⌋ : ℤ) : ℚ) ≤ 1000 * q := Int.floor_le _
    linarith
  · have h2 : 1000 * q < (⌊1000 * q⌋ : ℚ) + 1 := Int.lt_floor_add_one _
    linarith

theorem timeRangeLine_chars (sub : Subtitle) :
    ∀ c ∈ timeRangeLine sub,
      c.isDigit = true ∨ c = ':' ∨ c = ',' ∨ c = ' ' ∨ c = '-' ∨ c = '>' := by
  intro c hc
  rw [timeRangeLine] at hc
  simp only [List.mem_append, List.mem_cons] at hc
  rcases hc with hc | rfl | rfl | rfl | rfl | rfl | hc
  · rcases formatTime_chars _ c hc with h | h | h <;> tauto
  · tauto
  · tauto
  · tauto
  · tauto
  · tauto
  · rcases formatTime_chars _ c hc with h | h | h <;> tauto

theorem parseTimeRange_timeRangeLine (sub : Subtitle)
    (h1 : 0 ≤ sub.start) (h2 : 0 ≤ sub.«end») :
    parseTimeRange (timeRangeLine sub) =
      some (msTrunc sub.start, msTrunc sub.«end») := by
  have hnospace : ∀ q : ℚ, ∀ a ∈ formatTime q,
      (fun c => decide (c = ' ')) a = false := by
    intro q a ha
    rcases formatTime_chars q a ha with h | rfl | rfl
    · simp [(isDigit_ne_sep h).2.2.1]
    · decide
    · decide
  have harrow : ∀ a ∈ (['-', '-', '>'] : List Char),
      (fun c => decide (c = ' ')) a = false := by decide
  have hsplit : splitByP (fun c => c = ' ') (timeRangeLine sub) =
      [formatTime sub.start, ['-', '-', '>'], formatTime sub.«end»] := by
    rw [timeRangeLine]
    rw [splitByP_append _ _ ' ' _ (hnospace sub.start) (by simp)]
    rw [show ('-' :: '-' :: '>' :: ' ' :: formatTime sub.«end») =
      ((['-', '-', '>'] : List Char) ++ ' ' :: formatTime sub.«end») from rfl]
    rw [splitByP_append _ _ ' ' _ harrow (by simp)]
    rw [splitByP_not_mem _ _ (hnospace sub.«end»)]
  simp only [parseTimeRange, hsplit,
    parseSRTTime_formatTime_msTrunc sub.start h1,
    parseSRTTime_formatTime_msTrunc sub.«end» h2]
  simp

theorem srtBlock_line_split (sub : Subtitle) (hnl : ('\n' : Char) ∉ sub.text)
    (R : List Char) :
    splitByP (fun c => c = '\n') (srtBlock sub ++ '\n' :: R) =
      natToString sub.id :: timeRangeLine sub :: sub.text :: [] ::
        splitByP (fun c => c = '\n') R := by
  have hid : ∀ a ∈ natToString sub.id, (fun c => decide (c = '\n')) a = false :=
    fun a ha => by simp [(isDigit_ne_sep (natToString_digits _ a ha)).2.2.2.1]
  have htime : ∀ a ∈ timeRangeLine sub, (fun c => decide (c = '\n')) a = false := by
    intro a ha
    rcases timeRangeLine_chars sub a ha with h | rfl | rfl | rfl | rfl | rfl
    · simp [(isDigit_ne_sep h).2.2.2.1]
    all_goals decide
  have htext : ∀ a ∈ sub.text, (fun c => decide (c = '\n')) a = false :=
    fun a ha => by simp [show a ≠ '\n' from fun h => hnl (h ▸ ha)]
  rw [srtBlock]
  rw [show (natToString sub.id ++ '\n' ::
        (timeRangeLine sub ++ '\n' :: (sub.text ++ ['\n']))) ++ '\n' :: R =
      natToString sub.id ++ '\n' ::
        (timeRangeLine sub ++ '\n' :: (sub.text ++ '\n' :: '\n' :: R)) from by simp]
  rw [splitByP_append _ _ '\n' _ hid (by simp),
    splitByP_append _ _ '\n' _ htime (by simp),
    splitByP_append _ _ '\n' _ htext (by simp),
    splitByP_cons_sep _ '\n' R (by simp)]

theorem srtBlock_line_split_single (sub : Subtitle)
    (hnl : ('\n' : Char) ∉ sub.text) :
    splitByP (fun c => c = '\n') (srtBlock sub) =
      [natToString sub.id, timeRangeLine sub, sub.text, []] := by
  have hid : ∀ a ∈ natToString sub.id, (fun c => decide (c = '\n')) a = false :=
    fun a ha => by simp [(isDigit_ne_sep (natToString_digits _ a ha)).2.2.2.1]
  have htime : ∀ a ∈ timeRangeLine sub, (fun c => decide (c = '\n')) a = false := by
    intro a ha
    rcases timeRangeLine_chars sub a ha with h | rfl | rfl | rfl | rfl | rfl
    · simp [(isDigit_ne_sep h).2.2.2.1]
    all_goals decide
  have htext : ∀ a ∈ sub.text, (fun c => decide (c = '\n')) a = false :=
    fun a ha => by simp [show a ≠ '\n' from fun h => hnl (h ▸ ha)]
  rw [srtBlock]
  rw [splitByP_append _ _ '\n' _ hid (by simp),
    splitByP_append _ _ '\n' _ htime (by simp),
    splitByP_append _ _ '\n' _ htext (by simp)]
  rfl

theorem everyFourthSecond_generateSRT :
    ∀ subs : List Subtitle, (∀ sub ∈ subs, ('\n' : Char) ∉ sub.text) →
      everyFourthSecond (splitByP (fun c => c = '\n') (generateSRT subs)) =
        subs.map timeRangeLine := by
  intro subs
  induction subs with
  | nil => intro _; rfl
  | cons sub rest ih =>
    intro hnl
    cases rest with
    | nil =>
      rw [show generateSRT [sub] = srtBlock sub from rfl,
        srtBlock_line_split_single sub (hnl sub (by simp))]
      rfl
    | cons sub2 rest2 =>
      rw [show generateSRT (sub :: sub2 :: rest2) =
          srtBlock sub ++ '\n' :: generateSRT (sub2 :: rest2) from rfl,
        srtBlock_line_split sub (hnl sub (by simp)) _]
      rw [show everyFourthSecond (natToString sub.id :: timeRangeLine sub ::
          sub.text :: [] ::
          splitByP (fun c => c = '\n') (generateSRT (sub2 :: rest2))) =
        timeRangeLine sub :: everyFourthSecond
          (splitByP (fun c => c = '\n') (generateSRT (sub2 :: rest2))) from rfl]
      rw [ih (fun s hs => hnl s (List.mem_cons_of_mem _ hs))]
      rfl

/-- Claim C5: serializing any cue sequence (with single-line text and
non-negative times) to the SRT interchange format and re-parsing the
time-range lines recovers every cue's start and end to millisecond
precision: the parsed values are the times truncated to milliseconds,
each within 1/1000 of the original. -/
theorem srt_roundtrip (subs : List Subtitle)
    (hpos : ∀ sub ∈ subs, 0 ≤ sub.start ∧ 0 ≤ sub.«end»)
    (hnl : ∀ sub ∈ subs, ('\n' : Char) ∉ sub.text) :
    reparseTimeRanges (generateSRT subs) =
      subs.map (fun sub => some (msTrunc sub.start, msTrunc sub.«end»)) ∧
    ∀ sub ∈ subs,
      |sub.start - msTrunc sub.start| < 1 / 1000 ∧
      |sub.«end» - msTrunc sub.«end»| < 1 / 1000 := by
  constructor
  · rw [reparseTimeRanges, everyFourthSecond_generateSRT subs hnl, List.map_map]
    apply List.map_congr_left
    intro sub hsub
    exact parseTimeRange_timeRangeLine sub (hpos sub hsub).1 (hpos sub hsub).2
  · intro sub hsub
    have hs := msTrunc_close sub.start
    have he := msTrunc_close sub.«end»
    exact ⟨by rw [abs_of_nonneg hs.1]; exact hs.2,
      by rw [abs_of_nonneg he.1]; exact he.2⟩

/-- Witness for C5 at a one-cue sequence with times 0 and 2. -/
theorem srt_roundtrip_witness :
    reparseTimeRanges (generateSRT
        ([{ id := 1, text := ['H', 'i'], start := 0, «end» := 2, duration := 2 }] :
          List Subtitle)) =
      ([{ id := 1, text := ['H', 'i'], start := 0, «end» := 2, duration := 2 }] :
          List Subtitle).map
        (fun sub => some (msTrunc sub.start, msTrunc sub.«end»)) ∧
    ∀ sub ∈ ([{ id := 1, text := ['H', 'i'], start := 0, «end» := 2, duration := 2 }] : List Subtitle),
      |sub.start - msTrunc sub.start| < 1 / 1000 ∧
      |sub.«end» - msTrunc sub.«end»| < 1 / 1000 :=
  srt_roundtrip
    [{ id := 1, text := ['H', 'i'], start := 0, «end» := 2, duration := 2 }]
    (by decide) (by decide)

end Growloom
